import Mathlib

/-!
Verification of the VectorDB semantic chunking and retrieval services.

The Python sources are embedded shallowly:

* `app/services/chunking_service.py` : sentence splitting (regex split at a
  sentence-terminal punctuation mark followed by whitespace), cosine
  similarity between consecutive sentence embeddings, and the grouping loop
  of `chunk_text`.
* `app/services/embedding_service.py` : the list branch of `embed`.
* `app/services/vector_service.py` : strategy dispatch of `smart_search`
  and the formatting of repository results into `SearchResult` records.
* `app/api/routes.py` : the validation in `unified_search`.
* the score fusion of `repository.hybrid_search`, whose source file is not
  part of the sources at hand, is modelled from the specification.

Texts are embedded as `List Char` (so that the character-level splitting
and length bookkeeping of the Python code is kept exactly), floating point
scores as `ℚ` where only arithmetic and comparison matter, and embedding
vectors as `List ℝ` (cosine similarity involves square roots).  A numpy
float division 0/0, which yields NaN, is modelled by `Option ℝ` with
`none` for NaN.
-/

namespace VectorDB

/-- The sentence-terminal punctuation marks of the regex `[.!?]`. -/
def isTerm (c : Char) : Bool :=
  c = '.' || c = '!' || c = '?'

/-- The ASCII whitespace class of the Python regex `\s`. -/
def isWs (c : Char) : Bool :=
  c = ' ' || c = '\t' || c = '\n' || c = '\r' || c = '\x0b' || c = '\x0c'

/-- True when the list starts with a whitespace character. -/
def headIsWs : List Char → Bool
  | [] => false
  | c :: _ => isWs c

/-- Python `str.strip()`: drop whitespace from both ends. -/
def pyStrip (s : List Char) : List Char :=
  ((s.dropWhile (fun c => isWs c)).reverse.dropWhile (fun c => isWs c)).reverse

/-- The raw pieces of `re.split(r'(?<=[.!?])\s+', text)`: cut after every
terminal punctuation mark that is immediately followed by whitespace,
consuming the whole whitespace run, keeping the punctuation on the piece
before the cut. -/
def rawSplit : List Char → List (List Char)
  | [] => [[]]
  | c :: rest =>
    if isTerm c && headIsWs rest then
      [c] :: rawSplit (rest.dropWhile (fun d => isWs d))
    else
      match rawSplit rest with
      | [] => [[c]]
      | p :: ps => (c :: p) :: ps
termination_by cs => cs.length
decreasing_by
  · rename_i rest h
    clear h
    simp only [List.length_cons]
    refine Nat.lt_succ_of_le ?_
    induction rest with
    | nil => simp
    | cons a b ih =>
      by_cases h : isWs a
      · simpa [List.dropWhile, h] using Nat.le_succ_of_le ih
      · simp [List.dropWhile, h]
  · simp

/-- `ChunkingService._split_into_sentences`: regex split, then strip each
piece and drop the pieces that become empty. -/
def split_into_sentences (text : List Char) : List (List Char) :=
  ((rawSplit text).map pyStrip).filter (fun s => !s.isEmpty)

/-- Python `' '.join`: concatenate with single space separators. -/
def joinSp : List (List Char) → List Char
  | [] => []
  | [s] => s
  | s :: t :: rest => s ++ ' ' :: joinSp (t :: rest)

/-- A chunk record as built by `ChunkingService.chunk_text`.  The field
`group` is a ghost field recording the sentence group the chunk was built
from (the Python dict keeps only the joined `content`); every other field
matches a key of the Python dict. -/
structure ChunkInfo where
  group : List (List Char)
  content : List Char
  chunk_index : Nat
  start_pos : Nat
  end_pos : Nat
  sentence_count : Nat
deriving Repr, DecidableEq

/-- Closing a sentence group into a chunk record, as in the body of
`chunk_text` (lines 136-143 and 157-164 of `chunking_service.py`). -/
def mkChunk (group : List (List Char)) (idx startPos : Nat) : ChunkInfo :=
  let content := joinSp group
  { group := group
    content := content
    chunk_index := idx
    start_pos := startPos
    end_pos := startPos + content.length
    sentence_count := group.length }

/-- The main loop of `chunk_text` (lines 122-165), generic in the boolean
`below i`, which stands for `similarity(emb[i-1], emb[i]) < threshold`.
State: remaining sentences, current sentence index, chunks emitted so far,
current group, `current_chunk_length`, `start_pos`.  After the loop the
final group is flushed with the same closing rule. -/
def chunkLoop (size : Nat) (below : Nat → Bool) :
    List (List Char) → Nat → List ChunkInfo → List (List Char) → Nat → Nat →
    List ChunkInfo
  | [], _, chunks, cur, _, sp => chunks ++ [mkChunk cur chunks.length sp]
  | s :: rest, i, chunks, cur, curLen, sp =>
    if below i || decide (curLen + s.length > size) then
      let c := mkChunk cur chunks.length sp
      chunkLoop size below rest (i + 1) (chunks ++ [c]) [s] s.length
        (c.end_pos + 1)
    else
      chunkLoop size below rest (i + 1) chunks (cur ++ [s])
        (curLen + s.length + 1) sp

/-- Failure modes of `chunk_text`: the two `ValueError`s of lines 102 and
108 of `chunking_service.py`. -/
inductive ChunkError where
  | emptyText
  | noSentences
deriving Repr, DecidableEq

/-- `ChunkingService.chunk_text` on an already computed `below` predicate:
validate the text, split into sentences, then run the grouping loop
starting from the first sentence with `start_pos = 0`. -/
def chunk_text (size : Nat) (below : Nat → Bool) (text : List Char) :
    Except ChunkError (List ChunkInfo) :=
  if pyStrip text = [] then .error .emptyText
  else
    match split_into_sentences text with
    | [] => .error .noSentences
    | s0 :: rest => .ok (chunkLoop size below rest 1 [] [s0] s0.length 0)

/-- Dot product of two embedding vectors, `np.dot` on equal-length
vectors. -/
def dot : List ℝ → List ℝ → ℝ
  | a :: as, b :: bs => a * b + dot as bs
  | _, _ => 0

/-- Sum of squares of the entries; `np.linalg.norm v = Real.sqrt (normSq v)`. -/
def normSq (v : List ℝ) : ℝ :=
  (v.map (fun x => x * x)).sum

/-- `ChunkingService._calculate_similarity`: the raw division
`np.dot(emb1, emb2) / (np.linalg.norm(emb1) * np.linalg.norm(emb2))`.
There is no zero-norm guard in the source; when the denominator is zero the
numerator is zero as well (a zero-norm vector is the zero vector) and numpy
evaluates 0.0/0.0 to NaN, modelled here as `none`. -/
noncomputable def calculate_similarity (emb1 emb2 : List ℝ) : Option ℝ :=
  let denom := Real.sqrt (normSq emb1) * Real.sqrt (normSq emb2)
  if denom = 0 then none else some (dot emb1 emb2 / denom)

/-- Python comparison `similarity < threshold` where `similarity` may be
NaN: any comparison with NaN is `False`. -/
noncomputable def simBelow (threshold : ℝ) (embs : List (List ℝ)) (i : Nat) :
    Bool :=
  match calculate_similarity (embs.getD (i - 1) []) (embs.getD i []) with
  | none => false
  | some x => decide (x < threshold)

/-- `ChunkingService.chunk_text` with the similarity test computed from the
per-sentence embeddings `encode` delivers (the external sentence-transformer
encodes the sentences one vector each, order preserved). -/
noncomputable def chunk_text_full (size : Nat) (threshold : ℝ)
    (encode : List Char → List ℝ) (text : List Char) :
    Except ChunkError (List ChunkInfo) :=
  chunk_text size
    (simBelow threshold ((split_into_sentences text).map encode)) text

/-- Failure modes of `EmbeddingService.embed` on a list argument. -/
inductive EmbedError where
  | emptyList
  | allEmpty
deriving Repr, DecidableEq

/-- The list branch of `EmbeddingService.embed` (lines 48-58 of
`embedding_service.py`): reject an empty list, drop the texts whose
stripped content is empty, reject when nothing is left, and encode the
remaining texts in order (`model.encode` is order preserving, one vector
per text). -/
def embed (model : List Char → List ℚ) (texts : List (List Char)) :
    Except EmbedError (List (List ℚ)) :=
  if texts.isEmpty then .error .emptyList
  else
    let filtered := texts.filter (fun t => !(pyStrip t).isEmpty)
    if filtered.isEmpty then .error .allEmpty
    else .ok (filtered.map model)

/-- `MetadataModel` of `app/models/schemas.py`. -/
structure MetadataModel where
  source : String
  page_number : Int
  chunk_index : Nat
  created_at : String
  tags : List String
deriving Repr, DecidableEq

/-- `ChunkModel` of `app/models/schemas.py`. -/
structure ChunkModel where
  chunk_id : String
  document_id : String
  user_id : String
  content : String
  metadata : MetadataModel
deriving Repr, DecidableEq

/-- `MetadataFilter` of `app/models/schemas.py`; every field optional. -/
structure MetadataFilter where
  source : Option String
  page_number : Option Int
  tags : Option (List String)
  document_id : Option String
  user_id : Option String
deriving Repr, DecidableEq

/-- `SearchResult` of `app/models/schemas.py`; the score is a float,
modelled as `ℚ`. -/
structure SearchResult where
  chunk_id : String
  document_id : String
  user_id : String
  content : String
  metadata : MetadataModel
  similarity_score : ℚ
deriving Repr, DecidableEq

/-- A `SearchRequest` as `smart_search` reads it through `getattr` with
defaults: the three pydantic request shapes collapse to optional `query`
and `filters` plus `top_k` and `weight_vector`. -/
structure SearchRequest where
  query : Option String
  filters : Option MetadataFilter
  top_k : Nat
  weight_vector : ℚ
deriving Repr, DecidableEq

/-- Python truthiness of the optional `query` string: present and
non-empty. -/
def truthyQuery : Option String → Bool
  | none => false
  | some s => !(s = "")

/-- Python truthiness of the optional `filters` object: a pydantic model
instance is always truthy, so this is presence. -/
def truthyFilters : Option MetadataFilter → Bool
  | none => false
  | some _ => true

/-- The external `VectorRepository` as `smart_search` calls it: the three
search methods, each returning scored chunks. -/
structure Repo where
  hybrid_search : String → MetadataFilter → Nat → ℚ → List (ChunkModel × ℚ)
  semantic_search : String → Nat → List (ChunkModel × ℚ)
  metadata_search : MetadataFilter → Nat → List (ChunkModel × ℚ)

/-- The strategy dispatch of `VectorService.smart_search` (lines 98-126 of
`vector_service.py`): the `if query and filters / elif query /
elif filters / else` chain, with the final `else` returning an empty
result list. -/
def smart_search_raw (repo : Repo) (req : SearchRequest) :
    List (ChunkModel × ℚ) :=
  match req.query, req.filters with
  | some q, some f =>
    if q = "" then repo.metadata_search f req.top_k
    else repo.hybrid_search q f req.top_k req.weight_vector
  | some q, none => if q = "" then [] else repo.semantic_search q req.top_k
  | none, some f => repo.metadata_search f req.top_k
  | none, none => []

/-- The formatting loop of `smart_search` (lines 128-140): map each
`(chunk, score)` pair to a `SearchResult`, copying the chunk fields and the
score verbatim. -/
def formatResults (results : List (ChunkModel × ℚ)) : List SearchResult :=
  results.map (fun p =>
    { chunk_id := p.1.chunk_id
      document_id := p.1.document_id
      user_id := p.1.user_id
      content := p.1.content
      metadata := p.1.metadata
      similarity_score := p.2 })

/-- `VectorService.smart_search`: dispatch, then format.  The elapsed-time
measurement is dropped (wall-clock time is outside the model). -/
def smart_search (repo : Repo) (req : SearchRequest) : List SearchResult :=
  formatResults (smart_search_raw repo req)

/-- The error raised by the route for an under-specified request
(HTTP 400, the `InvalidRequestError` class of the spec). -/
inductive RouteError where
  | invalidRequest
deriving Repr, DecidableEq

/-- The `unified_search` route handler (lines 201-211 of
`app/api/routes.py`): reject a request with neither a truthy query nor
truthy filters before calling `smart_search`. -/
def unified_search (repo : Repo) (req : SearchRequest) :
    Except RouteError (List SearchResult) :=
  if !truthyQuery req.query && !truthyFilters req.filters then
    .error .invalidRequest
  else
    .ok (smart_search repo req)

/-- Modelled from the spec: the `Filter` predicate of the data model
(section 3) used by `repository.hybrid_search`, whose source file
`app/repository/vector_repo.py` is not among the sources at hand.  Each
present field must match by equality, and a present tag list matches by
non-empty intersection with the chunk tags. -/
def matchesFilter (c : ChunkModel) (f : MetadataFilter) : Bool :=
  (match f.source with | none => true | some s => s = c.metadata.source) &&
  (match f.page_number with
   | none => true
   | some p => p = c.metadata.page_number) &&
  (match f.document_id with | none => true | some d => d = c.document_id) &&
  (match f.user_id with | none => true | some u => u = c.user_id) &&
  (match f.tags with
   | none => true
   | some ts => ts.any (fun t => c.metadata.tags.contains t))

/-- A fused candidate: the chunk with its vector score and its fused
score. -/
structure FusedResult where
  chunk : ChunkModel
  vector_score : ℚ
  fused_score : ℚ
deriving Repr, DecidableEq

/-- The fusion ordering: descending fused score, ties broken by descending
vector score, then ascending `chunk_id`. -/
def fusedLe (a b : FusedResult) : Bool :=
  if a.fused_score = b.fused_score then
    if a.vector_score = b.vector_score then
      decide (a.chunk.chunk_id ≤ b.chunk.chunk_id)
    else decide (b.vector_score < a.vector_score)
  else decide (b.fused_score < a.fused_score)

/-- Modelled from the spec: `ScoreFusion.fuse` (section 4.4), the hybrid
branch of `repository.hybrid_search`, whose source file
`app/repository/vector_repo.py` is not among the sources at hand.  Score
each vector-search candidate by `weight_vector * vector_score +
(1 - weight_vector) * metadata_match` with a binary metadata-match
indicator, sort by `fusedLe` and truncate to `top_k`. -/
def hybrid_search_fuse (vector_results : List (ChunkModel × ℚ))
    (f : MetadataFilter) (weight_vector : ℚ) (top_k : Nat) :
    List FusedResult :=
  let scored := vector_results.map (fun p =>
    { chunk := p.1
      vector_score := p.2
      fused_score := weight_vector * p.2 +
        (1 - weight_vector) * (if matchesFilter p.1 f then 1 else 0) :
      FusedResult })
  (scored.mergeSort fusedLe).take top_k

/-- Per-chunk bookkeeping facts maintained by the chunking loop. -/
def fieldsGood (c : ChunkInfo) : Prop :=
  c.content = joinSp c.group ∧
  c.end_pos = c.start_pos + c.content.length ∧
  c.sentence_count = c.group.length ∧
  c.group ≠ []

/-- The positional relation between consecutive chunks. -/
def follows (a b : ChunkInfo) : Prop :=
  b.start_pos = a.end_pos + 1

/-- The oversized-chunk bound maintained by the loop: a chunk built from at
least two sentences has content length at most `size + 1`. -/
def sizeOk (size : Nat) (c : ChunkInfo) : Prop :=
  2 ≤ c.group.length → c.content.length ≤ size + 1

/-- True when the text contains a sentence-terminal punctuation mark
immediately followed by a whitespace character. -/
def hasBoundary : List Char → Bool
  | [] => false
  | c :: rest => (isTerm c && headIsWs rest) || hasBoundary rest

/-- The fusion ordering as a proposition: descending fused score, then
descending vector score, then ascending `chunk_id`. -/
def fusedOrder (a b : FusedResult) : Prop :=
  b.fused_score < a.fused_score ∨
    (a.fused_score = b.fused_score ∧
      (b.vector_score < a.vector_score ∨
        (a.vector_score = b.vector_score ∧
          a.chunk.chunk_id ≤ b.chunk.chunk_id)))

/-- A constant embedder used for concrete runs: every sentence gets the
vector `[1]`, so consecutive similarities are all `1`. -/
noncomputable def encW : List Char → List ℝ :=
  fun _ => [(1 : ℝ)]

/-- A two-sentence text: `a. b.` -/
def txtW : List Char :=
  'a' :: '.' :: ' ' :: 'b' :: '.' :: []

/-- The single chunk produced from `txtW` when nothing forces a split. -/
def chunkW : ChunkInfo :=
  { group := [['a', '.'], ['b', '.']]
    content := ['a', '.', ' ', 'b', '.']
    chunk_index := 0
    start_pos := 0
    end_pos := 5
    sentence_count := 2 }

/-- An embedder whose two sentence vectors point in opposite directions:
the cosine similarity of consecutive sentences is `-1`. -/
noncomputable def encCx : List Char → List ℝ :=
  fun s => if s = ['a', '.'] then [(1 : ℝ)] else [(-1 : ℝ)]

/-- A two-sentence text without a trailing punctuation mark: `a. b` -/
def txtCx : List Char :=
  'a' :: '.' :: ' ' :: 'b' :: []

/-- The oversize-demonstration text `ab! cd.`: two sentences of length 3
whose joined content has length 7. -/
def txtC2 : List Char :=
  'a' :: 'b' :: '!' :: ' ' :: 'c' :: 'd' :: '.' :: []

/-- The single chunk produced from `txtC2` with `size_limit = 6`: two
sentences, content length 7. -/
def chunkC2 : ChunkInfo :=
  { group := [['a', 'b', '!'], ['c', 'd', '.']]
    content := ['a', 'b', '!', ' ', 'c', 'd', '.']
    chunk_index := 0
    start_pos := 0
    end_pos := 7
    sentence_count := 2 }

/-- A sample metadata record. -/
def metaM : MetadataModel :=
  { source := "pdf"
    page_number := 1
    chunk_index := 0
    created_at := "2026-01-15"
    tags := ["billing"] }

/-- A sample chunk stored in the repository. -/
def chunkM : ChunkModel :=
  { chunk_id := "c1"
    document_id := "d1"
    user_id := "u1"
    content := "hello"
    metadata := metaM }

/-- A concrete repository whose three search methods all return a
non-empty result list, so that the dispatch target is observable. -/
def repoW : Repo :=
  { hybrid_search := fun _ _ _ _ => [(chunkM, 9 / 10)]
    semantic_search := fun _ _ => [(chunkM, 8 / 10)]
    metadata_search := fun _ _ => [(chunkM, 1)] }

/-! ### Helper lemmas -/

theorem length_dropWhile_le' (p : Char → Bool) (l : List Char) :
    (l.dropWhile p).length ≤ l.length := by
  induction l with
  | nil => simp
  | cons c cs ih =>
    by_cases h : p c
    · simpa [List.dropWhile, h] using Nat.le_succ_of_le ih
    · simp [List.dropWhile, h]

/-! ### Helper lemmas about `joinSp` -/

theorem joinSp_cons (s : List Char) (l : List (List Char)) (h : l ≠ []) :
    joinSp (s :: l) = s ++ ' ' :: joinSp l := by
  cases l with
  | nil => exact absurd rfl h
  | cons t rest => rfl

theorem joinSp_append (l₁ l₂ : List (List Char)) (h₁ : l₁ ≠ [])
    (h₂ : l₂ ≠ []) : joinSp (l₁ ++ l₂) = joinSp l₁ ++ ' ' :: joinSp l₂ := by
  induction l₁ with
  | nil => exact absurd rfl h₁
  | cons s t ih =>
    cases t with
    | nil => simpa using joinSp_cons s l₂ h₂
    | cons u v =>
      rw [List.cons_append, joinSp_cons s ((u :: v) ++ l₂) (by simp),
        joinSp_cons s (u :: v) (by simp), ih (by simp)]
      simp

theorem length_joinSp_cons (s : List Char) (l : List (List Char)) :
    (joinSp (s :: l)).length
      = s.length + (if l.isEmpty then 0 else 1 + (joinSp l).length) := by
  cases l with
  | nil => simp [joinSp]
  | cons t rest =>
    simp [joinSp_cons s (t :: rest) (by simp)]
    omega

theorem length_le_length_joinSp_cons (s : List Char) (l : List (List Char)) :
    s.length ≤ (joinSp (s :: l)).length := by
  rw [length_joinSp_cons]
  exact Nat.le_add_right _ _

theorem length_joinSp_le_joinSp_cons (s : List Char) (l : List (List Char)) :
    (joinSp l).length ≤ (joinSp (s :: l)).length := by
  rw [length_joinSp_cons]
  cases l with
  | nil => simp [joinSp]
  | cons t rest => simp; omega

theorem indices_append_one (chunks : List ChunkInfo) (c₀ : ChunkInfo)
    (h₀ : c₀.chunk_index = chunks.length)
    (hidx : ∀ (j : Nat) (c : ChunkInfo), chunks[j]? = some c →
      c.chunk_index = j) :
    ∀ (j : Nat) (c : ChunkInfo), (chunks ++ [c₀])[j]? = some c →
      c.chunk_index = j := by
  intro j c hc
  rw [List.getElem?_append] at hc
  rcases Nat.lt_or_ge j chunks.length with hj | hj
  · rw [if_pos hj] at hc
    exact hidx j c hc
  · rw [if_neg (by omega)] at hc
    rcases Nat.lt_or_ge (j - chunks.length) 1 with hd | hd
    · have hj0 : j - chunks.length = 0 := by omega
      rw [hj0] at hc
      simp at hc
      subst hc
      omega
    · have : ([c₀] : List ChunkInfo)[j - chunks.length]? = none := by
        apply List.getElem?_eq_none
        simpa using hd
      rw [this] at hc
      exact absurd hc (by simp)

theorem joinSp_ne_nil (l : List (List Char)) (hne : l ≠ [])
    (h : ∀ g ∈ l, g ≠ []) : joinSp l ≠ [] := by
  cases l with
  | nil => exact absurd rfl hne
  | cons s t =>
    have hs : s ≠ [] := h s (by simp)
    cases t with
    | nil => simpa [joinSp] using hs
    | cons u v =>
      rw [joinSp_cons s (u :: v) (by simp)]
      simp [hs]

/-! ### Helper lemmas about the chunking loop -/

theorem fieldsGood_mkChunk (group : List (List Char)) (idx sp : Nat)
    (h : group ≠ []) : fieldsGood (mkChunk group idx sp) := by
  exact ⟨rfl, rfl, rfl, h⟩

theorem chunkLoop_groups_join (size : Nat) (below : Nat → Bool) :
    ∀ (rest : List (List Char)) (i : Nat) (chunks : List ChunkInfo)
      (cur : List (List Char)) (curLen sp : Nat),
      ((chunkLoop size below rest i chunks cur curLen sp).map
          (fun c => c.group)).flatten
        = ((chunks.map (fun c => c.group)).flatten ++ cur) ++ rest := by
  intro rest
  induction rest with
  | nil => intro i chunks cur curLen sp; simp [chunkLoop, mkChunk]
  | cons s rest ih =>
    intro i chunks cur curLen sp
    rw [chunkLoop]
    cases hb : below i || decide (curLen + s.length > size)
    · rw [if_neg Bool.false_ne_true, ih]
      simp
    · rw [if_pos rfl, ih]
      simp [mkChunk]

theorem chunkLoop_fieldsGood (size : Nat) (below : Nat → Bool) :
    ∀ (rest : List (List Char)) (i : Nat) (chunks : List ChunkInfo)
      (cur : List (List Char)) (curLen sp : Nat),
      (∀ c ∈ chunks, fieldsGood c) → cur ≠ [] →
      ∀ c ∈ chunkLoop size below rest i chunks cur curLen sp, fieldsGood c := by
  intro rest
  induction rest with
  | nil =>
    intro i chunks cur curLen sp hch hcur c hc
    rw [chunkLoop] at hc
    rcases List.mem_append.mp hc with h | h
    · exact hch c h
    · rcases List.mem_singleton.mp h with rfl
      exact fieldsGood_mkChunk _ _ _ hcur
  | cons s rest ih =>
    intro i chunks cur curLen sp hch hcur c hc
    rw [chunkLoop] at hc
    cases hb : below i || decide (curLen + s.length > size)
    · rw [hb, if_neg Bool.false_ne_true] at hc
      exact ih _ _ _ _ _ hch (by simp [hcur]) c hc
    · rw [hb, if_pos rfl] at hc
      refine ih _ _ _ _ _ ?_ (by simp) c hc
      intro d hd
      rcases List.mem_append.mp hd with h' | h'
      · exact hch d h'
      · rcases List.mem_singleton.mp h' with rfl
        exact fieldsGood_mkChunk _ _ _ hcur

theorem chunkLoop_indices (size : Nat) (below : Nat → Bool) :
    ∀ (rest : List (List Char)) (i : Nat) (chunks : List ChunkInfo)
      (cur : List (List Char)) (curLen sp : Nat),
      (∀ (j : Nat) (c : ChunkInfo), chunks[j]? = some c →
        c.chunk_index = j) →
      ∀ (j : Nat) (c : ChunkInfo),
        (chunkLoop size below rest i chunks cur curLen sp)[j]? = some c →
        c.chunk_index = j := by
  intro rest
  induction rest with
  | nil =>
    intro i chunks cur curLen sp hidx j c hc
    rw [chunkLoop] at hc
    exact indices_append_one chunks _ rfl hidx j c hc
  | cons s rest ih =>
    intro i chunks cur curLen sp hidx j c hc
    rw [chunkLoop] at hc
    cases hb : below i || decide (curLen + s.length > size)
    · rw [hb, if_neg Bool.false_ne_true] at hc
      exact ih _ _ _ _ _ hidx j c hc
    · rw [hb, if_pos rfl] at hc
      exact ih _ _ _ _ _ (indices_append_one chunks _ rfl hidx) j c hc

theorem chain_append_one (chunks : List ChunkInfo) (c₀ : ChunkInfo)
    (hch : List.Chain' follows chunks)
    (hsp : ∀ x, chunks.getLast? = some x → c₀.start_pos = x.end_pos + 1) :
    List.Chain' follows (chunks ++ [c₀]) := by
  rw [List.chain'_append]
  refine ⟨hch, List.chain'_singleton c₀, ?_⟩
  intro x hx y hy
  simp at hy
  subst hy
  exact hsp x hx

theorem chunkLoop_chained (size : Nat) (below : Nat → Bool) :
    ∀ (rest : List (List Char)) (i : Nat) (chunks : List ChunkInfo)
      (cur : List (List Char)) (curLen sp : Nat),
      List.Chain' follows chunks →
      (∀ x, chunks.getLast? = some x → sp = x.end_pos + 1) →
      List.Chain' follows (chunkLoop size below rest i chunks cur curLen sp) := by
  intro rest
  induction rest with
  | nil =>
    intro i chunks cur curLen sp hch hsp
    rw [chunkLoop]
    exact chain_append_one chunks _ hch (by intro x hx; simpa [mkChunk] using hsp x hx)
  | cons s rest ih =>
    intro i chunks cur curLen sp hch hsp
    rw [chunkLoop]
    cases hb : below i || decide (curLen + s.length > size)
    · rw [if_neg Bool.false_ne_true]
      exact ih _ _ _ _ _ hch hsp
    · rw [if_pos rfl]
      refine ih _ _ _ _ _ ?_ ?_
      · exact chain_append_one chunks _ hch
          (by intro x hx; simpa [mkChunk] using hsp x hx)
      · intro x hx
        rw [List.getLast?_append] at hx
        simp at hx
        subst hx
        rfl

theorem chunkLoop_sizeOk (size : Nat) (below : Nat → Bool) :
    ∀ (rest : List (List Char)) (i : Nat) (chunks : List ChunkInfo)
      (cur : List (List Char)) (curLen sp : Nat),
      (∀ c ∈ chunks, sizeOk size c) →
      curLen = (joinSp cur).length → cur ≠ [] →
      (2 ≤ cur.length → curLen ≤ size + 1) →
      ∀ c ∈ chunkLoop size below rest i chunks cur curLen sp,
        sizeOk size c := by
  intro rest
  induction rest with
  | nil =>
    intro i chunks cur curLen sp hch hlen hcur hbound c hc
    rw [chunkLoop] at hc
    rcases List.mem_append.mp hc with h | h
    · exact hch c h
    · rcases List.mem_singleton.mp h with rfl
      intro h2
      simpa [mkChunk, ← hlen] using hbound h2
  | cons s rest ih =>
    intro i chunks cur curLen sp hch hlen hcur hbound c hc
    rw [chunkLoop] at hc
    cases hb : below i || decide (curLen + s.length > size)
    · rw [hb, if_neg Bool.false_ne_true] at hc
      have hle : curLen + s.length ≤ size := by
        have := (Bool.or_eq_false_iff.mp hb).2
        simpa using of_decide_eq_false this
      refine ih _ _ _ _ _ hch ?_ (by simp [hcur]) ?_ c hc
      · rw [joinSp_append cur [s] hcur (by simp)]
        simp [joinSp, hlen]
        omega
      · intro _
        omega
    · rw [hb, if_pos rfl] at hc
      refine ih _ _ _ _ _ ?_ (by simp [joinSp]) (by simp) (by simp) c hc
      intro d hd
      rcases List.mem_append.mp hd with h' | h'
      · exact hch d h'
      · rcases List.mem_singleton.mp h' with rfl
        intro h2
        simpa [mkChunk, ← hlen] using hbound h2

theorem chunkLoop_all_merge (size : Nat) (below : Nat → Bool)
    (hno : ∀ j, below j = false) :
    ∀ (rest : List (List Char)) (i : Nat) (chunks : List ChunkInfo)
      (cur : List (List Char)) (curLen sp : Nat),
      cur ≠ [] → curLen = (joinSp cur).length →
      (joinSp (cur ++ rest)).length ≤ size →
      chunkLoop size below rest i chunks cur curLen sp
        = chunks ++ [mkChunk (cur ++ rest) chunks.length sp] := by
  intro rest
  induction rest with
  | nil =>
    intro i chunks cur curLen sp hcur hlen hsize
    rw [chunkLoop]
    simp
  | cons s rest ih =>
    intro i chunks cur curLen sp hcur hlen hsize
    rw [chunkLoop]
    have hjoin : joinSp (cur ++ s :: rest)
        = joinSp cur ++ ' ' :: joinSp (s :: rest) :=
      joinSp_append cur (s :: rest) hcur (by simp)
    have hsbound : s.length ≤ (joinSp (s :: rest)).length :=
      length_le_length_joinSp_cons s rest
    have hle : curLen + s.length ≤ size := by
      have : (joinSp (cur ++ s :: rest)).length
          = (joinSp cur).length + 1 + (joinSp (s :: rest)).length := by
        rw [hjoin]; simp; omega
      omega
    have hcond : (below i || decide (curLen + s.length > size)) = false := by
      rw [hno i]
      simp
      omega
    rw [hcond, if_neg Bool.false_ne_true]
    have hlen' : curLen + s.length + 1 = (joinSp (cur ++ [s])).length := by
      rw [joinSp_append cur [s] hcur (by simp)]
      simp [joinSp, hlen]
      omega
    have happ : (cur ++ [s]) ++ rest = cur ++ s :: rest := by simp
    have hrec := ih (i + 1) chunks (cur ++ [s]) (curLen + s.length + 1) sp
      (by simp [hcur]) hlen' (by rw [happ]; exact hsize)
    rw [hrec, happ]

/-! ### Helper lemmas about the sentence splitter -/

theorem rawSplit_ne_nil (cs : List Char) : rawSplit cs ≠ [] := by
  induction cs using rawSplit.induct with
  | case1 => rw [rawSplit]; simp
  | case2 c rest h ih =>
    rw [rawSplit, if_pos h]
    simp
  | case3 c rest h hr ih => exact absurd hr ih
  | case4 c rest h p ps hr ih =>
    rw [rawSplit, if_neg h, hr]
    simp

theorem rawSplit_no_boundary :
    ∀ cs : List Char, hasBoundary cs = false → rawSplit cs = [cs] := by
  intro cs
  induction cs using rawSplit.induct with
  | case1 => intro _; rw [rawSplit]
  | case2 c rest hb ih =>
    intro h
    rw [hasBoundary] at h
    simp [hb] at h
  | case3 c rest hb hr ih => exact absurd hr (rawSplit_ne_nil rest)
  | case4 c rest hb p ps hr ih =>
    intro h
    rw [hasBoundary, Bool.or_eq_false_iff] at h
    have hrest := ih h.2
    rw [hr] at hrest
    simp at hrest
    rw [rawSplit, if_neg hb, hr, hrest.1, hrest.2]

theorem pyStrip_length_le (s : List Char) : (pyStrip s).length ≤ s.length := by
  unfold pyStrip
  calc ((s.dropWhile (fun c => isWs c)).reverse.dropWhile
          (fun c => isWs c)).reverse.length
      = ((s.dropWhile (fun c => isWs c)).reverse.dropWhile
          (fun c => isWs c)).length := by rw [List.length_reverse]
    _ ≤ (s.dropWhile (fun c => isWs c)).reverse.length :=
        length_dropWhile_le' _ _
    _ = (s.dropWhile (fun c => isWs c)).length := by rw [List.length_reverse]
    _ ≤ s.length := length_dropWhile_le' _ _

theorem length_joinSp_map_pyStrip_le (l : List (List Char)) :
    (joinSp (l.map pyStrip)).length ≤ (joinSp l).length := by
  induction l with
  | nil => simp [joinSp]
  | cons s t ih =>
    rw [List.map_cons, length_joinSp_cons, length_joinSp_cons]
    have hs := pyStrip_length_le s
    cases t with
    | nil => simpa [joinSp] using hs
    | cons u v =>
      have ht1 : ((u :: v).map pyStrip).isEmpty = false := rfl
      have ht2 : (u :: v).isEmpty = false := rfl
      rw [ht1, ht2, if_neg Bool.false_ne_true, if_neg Bool.false_ne_true]
      have := ih
      rw [List.map_cons] at this
      omega

theorem length_joinSp_filter_le (q : List Char → Bool) (l : List (List Char)) :
    (joinSp (l.filter q)).length ≤ (joinSp l).length := by
  induction l with
  | nil => simp [joinSp]
  | cons s t ih =>
    rw [List.filter_cons]
    cases hq : q s
    · rw [if_neg Bool.false_ne_true]
      calc (joinSp (t.filter q)).length ≤ (joinSp t).length := ih
        _ ≤ (joinSp (s :: t)).length := length_joinSp_le_joinSp_cons s t
    · rw [if_pos rfl, length_joinSp_cons, length_joinSp_cons]
      cases he : (t.filter q).isEmpty
      · have ht : t.isEmpty = false := by
          cases t with
          | nil => simp [List.filter_nil] at he
          | cons _ _ => rfl
        rw [ht, if_neg Bool.false_ne_true, if_neg Bool.false_ne_true]
        omega
      · rw [if_pos rfl]
        cases ht : t.isEmpty
        · rw [if_neg Bool.false_ne_true]
          omega
        · rw [if_pos rfl]

theorem rawSplit_joinSp_length (cs : List Char) :
    (joinSp (rawSplit cs)).length ≤ cs.length := by
  induction cs using rawSplit.induct with
  | case1 => rw [rawSplit]; simp [joinSp]
  | case2 c rest h ih =>
    rw [rawSplit, if_pos h]
    have hne := rawSplit_ne_nil (rest.dropWhile (fun d => isWs d))
    rw [joinSp_cons _ _ hne]
    have hdrop : (rest.dropWhile (fun d => isWs d)).length + 1 ≤ rest.length := by
      cases rest with
      | nil => simp [headIsWs] at h
      | cons r rest₂ =>
        have hws : isWs r = true := by
          rcases Bool.and_eq_true_iff.mp h with ⟨_, h₂⟩
          simpa [headIsWs] using h₂
        rw [List.dropWhile_cons, if_pos hws]
        simpa using Nat.succ_le_succ (length_dropWhile_le' _ rest₂)
    simp only [List.length_cons, List.length_append, List.length_nil]
    omega
  | case3 c rest h hr ih => exact absurd hr (rawSplit_ne_nil rest)
  | case4 c rest h p ps hr ih =>
    rw [rawSplit, if_neg h, hr]
    have hred : (match p :: ps with
        | [] => ([[c]] : List (List Char))
        | q :: qs => (c :: q) :: qs) = (c :: p) :: ps := rfl
    rw [hred]
    rw [hr] at ih
    rw [length_joinSp_cons] at ih ⊢
    simp only [List.length_cons]
    omega

theorem split_into_sentences_length (text : List Char) :
    (joinSp (split_into_sentences text)).length ≤ text.length := by
  unfold split_into_sentences
  calc (joinSp (((rawSplit text).map pyStrip).filter
          (fun s => !s.isEmpty))).length
      ≤ (joinSp ((rawSplit text).map pyStrip)).length :=
        length_joinSp_filter_le _ _
    _ ≤ (joinSp (rawSplit text)).length :=
        length_joinSp_map_pyStrip_le _
    _ ≤ text.length := rawSplit_joinSp_length text

theorem split_into_sentences_ne_nil_mem (text : List Char) :
    ∀ s ∈ split_into_sentences text, s ≠ [] := by
  intro s hs
  unfold split_into_sentences at hs
  have := List.of_mem_filter hs
  simpa using this

/-! ### Helper lemmas about cosine similarity -/

theorem normSq_nonneg (v : List ℝ) : 0 ≤ normSq v := by
  apply List.sum_nonneg
  intro x hx
  rcases List.mem_map.mp hx with ⟨y, _, rfl⟩
  exact mul_self_nonneg y

theorem sqrt_normSq_eq_zero_iff (v : List ℝ) :
    Real.sqrt (normSq v) = 0 ↔ normSq v = 0 := by
  constructor
  · intro h
    have h' : normSq v ≤ 0 := Real.sqrt_eq_zero'.mp h
    exact le_antisymm h' (normSq_nonneg v)
  · intro h
    rw [h, Real.sqrt_zero]

theorem calculate_similarity_none_iff (a b : List ℝ) :
    calculate_similarity a b = none ↔ (normSq a = 0 ∨ normSq b = 0) := by
  unfold calculate_similarity
  by_cases h : Real.sqrt (normSq a) * Real.sqrt (normSq b) = 0
  · rw [if_pos h]
    simp only [true_iff]
    rcases mul_eq_zero.mp h with h' | h'
    · exact Or.inl ((sqrt_normSq_eq_zero_iff a).mp h')
    · exact Or.inr ((sqrt_normSq_eq_zero_iff b).mp h')
  · rw [if_neg h]
    simp only [reduceCtorEq, false_iff]
    intro hc
    apply h
    rcases hc with h' | h'
    · rw [(sqrt_normSq_eq_zero_iff a).mpr h']
      ring
    · rw [(sqrt_normSq_eq_zero_iff b).mpr h']
      ring

theorem calculate_similarity_of_ne_zero (a b : List ℝ)
    (ha : normSq a ≠ 0) (hb : normSq b ≠ 0) :
    calculate_similarity a b
      = some (dot a b / (Real.sqrt (normSq a) * Real.sqrt (normSq b))) := by
  unfold calculate_similarity
  rw [if_neg]
  intro h
  rcases mul_eq_zero.mp h with h' | h'
  · exact ha ((sqrt_normSq_eq_zero_iff a).mp h')
  · exact hb ((sqrt_normSq_eq_zero_iff b).mp h')

theorem calculate_similarity_one_one :
    calculate_similarity [(1 : ℝ)] [(1 : ℝ)] = some 1 := by
  have hn : normSq [(1 : ℝ)] = 1 := by
    simp [normSq]
  rw [calculate_similarity_of_ne_zero _ _ (by rw [hn]; norm_num)
    (by rw [hn]; norm_num), hn, Real.sqrt_one]
  simp [dot]

theorem calculate_similarity_one_negone :
    calculate_similarity [(1 : ℝ)] [(-1 : ℝ)] = some (-1) := by
  have hn : normSq [(1 : ℝ)] = 1 := by simp [normSq]
  have hn' : normSq [(-1 : ℝ)] = 1 := by simp [normSq]
  rw [calculate_similarity_of_ne_zero _ _ (by rw [hn]; norm_num)
    (by rw [hn']; norm_num), hn, hn', Real.sqrt_one]
  simp [dot]

theorem calculate_similarity_nil_right (a : List ℝ) :
    calculate_similarity a [] = none := by
  rw [calculate_similarity_none_iff]
  exact Or.inr (by simp [normSq])

/-! ### Helper lemmas about the fusion ordering -/

theorem fusedLe_iff (a b : FusedResult) :
    fusedLe a b = true ↔ fusedOrder a b := by
  unfold fusedLe fusedOrder
  by_cases h1 : a.fused_score = b.fused_score
  · rw [if_pos h1]
    by_cases h2 : a.vector_score = b.vector_score
    · rw [if_pos h2]
      simp [h1, h2]
    · rw [if_neg h2]
      simp only [decide_eq_true_eq]
      constructor
      · intro h
        exact Or.inr ⟨h1, Or.inl h⟩
      · intro h
        rcases h with h | ⟨_, h⟩
        · exact absurd h1 (ne_of_gt h)
        · rcases h with h | ⟨h, _⟩
          · exact h
          · exact absurd h h2
  · rw [if_neg h1]
    simp only [decide_eq_true_eq]
    constructor
    · intro h
      exact Or.inl h
    · intro h
      rcases h with h | ⟨h, _⟩
      · exact h
      · exact absurd h h1

theorem fusedOrder_trans (a b c : FusedResult) (hab : fusedOrder a b)
    (hbc : fusedOrder b c) : fusedOrder a c := by
  unfold fusedOrder at *
  rcases hab with h1 | ⟨he1, h1⟩
  · rcases hbc with h2 | ⟨he2, h2⟩
    · exact Or.inl (lt_trans h2 h1)
    · exact Or.inl (he2 ▸ h1)
  · rcases hbc with h2 | ⟨he2, h2⟩
    · exact Or.inl (he1 ▸ h2)
    · refine Or.inr ⟨he1.trans he2, ?_⟩
      rcases h1 with h1 | ⟨hv1, h1⟩
      · rcases h2 with h2 | ⟨hv2, h2⟩
        · exact Or.inl (lt_trans h2 h1)
        · exact Or.inl (hv2 ▸ h1)
      · rcases h2 with h2 | ⟨hv2, h2⟩
        · exact Or.inl (hv1 ▸ h2)
        · exact Or.inr ⟨hv1.trans hv2, le_trans h1 h2⟩

theorem fusedOrder_total (a b : FusedResult) :
    fusedOrder a b ∨ fusedOrder b a := by
  unfold fusedOrder
  rcases lt_trichotomy a.fused_score b.fused_score with h | h | h
  · exact Or.inr (Or.inl h)
  · rcases lt_trichotomy a.vector_score b.vector_score with h' | h' | h'
    · exact Or.inr (Or.inr ⟨h.symm, Or.inl h'⟩)
    · rcases le_total a.chunk.chunk_id b.chunk.chunk_id with h'' | h''
      · exact Or.inl (Or.inr ⟨h, Or.inr ⟨h', h''⟩⟩)
      · exact Or.inr (Or.inr ⟨h.symm, Or.inr ⟨h'.symm, h''⟩⟩)
    · exact Or.inl (Or.inr ⟨h, Or.inl h'⟩)
  · exact Or.inl (Or.inl h)

theorem fusedLe_trans_bool (a b c : FusedResult) (hab : fusedLe a b = true)
    (hbc : fusedLe b c = true) : fusedLe a c = true :=
  (fusedLe_iff a c).mpr
    (fusedOrder_trans a b c ((fusedLe_iff a b).mp hab) ((fusedLe_iff b c).mp hbc))

theorem fusedLe_total_bool (a b : FusedResult) :
    (fusedLe a b || fusedLe b a) = true := by
  rcases fusedOrder_total a b with h | h
  · simp [(fusedLe_iff a b).mpr h]
  · simp [(fusedLe_iff b a).mpr h]

/-! ### Remaining loop and evaluation helpers -/

theorem chunkLoop_group_mem (size : Nat) (below : Nat → Bool)
    (P : List Char → Prop) :
    ∀ (rest : List (List Char)) (i : Nat) (chunks : List ChunkInfo)
      (cur : List (List Char)) (curLen sp : Nat),
      (∀ c ∈ chunks, ∀ g ∈ c.group, P g) → (∀ g ∈ cur, P g) →
      (∀ s ∈ rest, P s) →
      ∀ c ∈ chunkLoop size below rest i chunks cur curLen sp,
        ∀ g ∈ c.group, P g := by
  intro rest
  induction rest with
  | nil =>
    intro i chunks cur curLen sp hch hcur _ c hc
    rw [chunkLoop] at hc
    rcases List.mem_append.mp hc with h | h
    · exact hch c h
    · rcases List.mem_singleton.mp h with rfl
      exact hcur
  | cons s rest ih =>
    intro i chunks cur curLen sp hch hcur hrest c hc
    rw [chunkLoop] at hc
    cases hb : below i || decide (curLen + s.length > size)
    · rw [hb, if_neg Bool.false_ne_true] at hc
      refine ih _ _ _ _ _ hch ?_ (fun t ht => hrest t (by simp [ht])) c hc
      intro g hg
      rcases List.mem_append.mp hg with h' | h'
      · exact hcur g h'
      · rcases List.mem_singleton.mp h' with rfl
        exact hrest g (by simp)
    · rw [hb, if_pos rfl] at hc
      refine ih _ _ _ _ _ ?_ ?_ (fun t ht => hrest t (by simp [ht])) c hc
      · intro d hd
        rcases List.mem_append.mp hd with h' | h'
        · exact hch d h'
        · rcases List.mem_singleton.mp h' with rfl
          exact hcur
      · intro g hg
        rcases List.mem_singleton.mp hg with rfl
        exact hrest g (by simp)

theorem simBelow_one_one_eq_false (θ : ℝ) (hθ : ¬ (1 : ℝ) < θ) :
    simBelow θ [[(1 : ℝ)], [(1 : ℝ)]] 1 = false := by
  unfold simBelow
  have : calculate_similarity
      (([[(1 : ℝ)], [(1 : ℝ)]] : List (List ℝ)).getD 0 [])
      (([[(1 : ℝ)], [(1 : ℝ)]] : List (List ℝ)).getD 1 [])
      = some 1 := by
    simpa using calculate_similarity_one_one
  rw [this]
  exact decide_eq_false hθ

theorem split_txtW : split_into_sentences txtW = [['a', '.'], ['b', '.']] := by
  simp [split_into_sentences, txtW, rawSplit, pyStrip, isTerm, isWs, headIsWs]

theorem chunk_text_full_txtW (θ : ℝ) (hθ : ¬ (1 : ℝ) < θ) :
    chunk_text_full 100 θ encW txtW = .ok [chunkW] := by
  unfold chunk_text_full chunk_text
  rw [split_txtW]
  have hmap : (([['a', '.'], ['b', '.']] : List (List Char)).map encW)
      = [[(1 : ℝ)], [(1 : ℝ)]] := by simp [encW]
  rw [hmap, if_neg (by decide)]
  have hb := simBelow_one_one_eq_false θ hθ
  simp [chunkLoop, hb, mkChunk, joinSp, chunkW]

theorem simBelow_one_negone_eq_true :
    simBelow (0 : ℝ) [[(1 : ℝ)], [(-1 : ℝ)]] 1 = true := by
  unfold simBelow
  have : calculate_similarity
      (([[(1 : ℝ)], [(-1 : ℝ)]] : List (List ℝ)).getD 0 [])
      (([[(1 : ℝ)], [(-1 : ℝ)]] : List (List ℝ)).getD 1 [])
      = some (-1) := by
    simpa using calculate_similarity_one_negone
  rw [this]
  exact decide_eq_true (by norm_num)

/-- Unwrapping a successful run of `chunk_text_full` into its loop form. -/
theorem chunk_text_full_ok_elim (size : Nat) (θ : ℝ)
    (encode : List Char → List ℝ) (text : List Char)
    (chunks : List ChunkInfo)
    (h : chunk_text_full size θ encode text = .ok chunks) :
    ∃ s0 rest, split_into_sentences text = s0 :: rest ∧
      chunks = chunkLoop size (simBelow θ ((s0 :: rest).map encode))
        rest 1 [] [s0] s0.length 0 := by
  unfold chunk_text_full chunk_text at h
  by_cases h1 : pyStrip text = []
  · rw [if_pos h1] at h
    cases h
  · rw [if_neg h1] at h
    cases hs : split_into_sentences text with
    | nil =>
      rw [hs] at h
      cases h
    | cons s0 rest =>
      rw [hs] at h
      refine ⟨s0, rest, rfl, ?_⟩
      cases h
      rfl

/-! ### The claims -/

/-- C2, amended.  The size check of `chunk_text` is
`current_chunk_length + sentence_length > chunk_size`, without the `+ 1`
for the separator that the claim describes; as a consequence the bound the
claim states is off by one: a chunk of at least two sentences has content
length at most `size_limit + 1` (not `size_limit`), while a single-sentence
chunk may be arbitrarily long. -/
theorem C2_multi_sentence_chunk_size_bound (size : Nat) (threshold : ℝ)
    (encode : List Char → List ℝ) (text : List Char)
    (chunks : List ChunkInfo)
    (h : chunk_text_full size threshold encode text = .ok chunks) :
    ∀ c ∈ chunks, 2 ≤ c.sentence_count → c.content.length ≤ size + 1 := by
  obtain ⟨s0, rest, hs, rfl⟩ := chunk_text_full_ok_elim _ _ _ _ _ h
  intro c hc h2
  have hf := chunkLoop_fieldsGood size _ rest 1 [] [s0] s0.length 0
    (by simp) (by simp) c hc
  have hsz := chunkLoop_sizeOk size _ rest 1 [] [s0] s0.length 0
    (by simp) (by simp [joinSp]) (by simp) (by simp) c hc
  exact hsz (hf.2.2.1 ▸ h2)

/-- C2 counterexample to the claim as stated: with `size_limit = 6` the
text `ab! cd.` (two sentences of length 3, high similarity) is chunked into
a single two-sentence chunk of content length 7: the loop accepts the
second sentence because `3 + 3 > 6` is false, even though the joined
content has `3 + 1 + 3 = 7 > 6` characters. -/
theorem C2_counterexample :
    chunk_text_full 6 (1 / 2 : ℝ) encW txtC2 = .ok [chunkC2] ∧
      2 ≤ chunkC2.sentence_count ∧ 6 < chunkC2.content.length := by
  refine ⟨?_, by decide, by decide⟩
  unfold chunk_text_full chunk_text
  have hsplit : split_into_sentences txtC2
      = [['a', 'b', '!'], ['c', 'd', '.']] := by
    simp [split_into_sentences, txtC2, rawSplit, pyStrip, isTerm, isWs,
      headIsWs]
  rw [hsplit]
  have hmap : (([['a', 'b', '!'], ['c', 'd', '.']] : List (List Char)).map
      encW) = [[(1 : ℝ)], [(1 : ℝ)]] := by simp [encW]
  rw [hmap, if_neg (by decide)]
  have hb := simBelow_one_one_eq_false (2⁻¹ : ℝ) (by norm_num)
  simp [chunkLoop, hb, mkChunk, joinSp, chunkC2]

/-- C3: the concatenation of the sentence groups of all emitted chunks, in
emission order, is exactly the sentence sequence produced by the
splitter. -/
theorem C3_chunks_partition_sentences (size : Nat) (threshold : ℝ)
    (encode : List Char → List ℝ) (text : List Char)
    (chunks : List ChunkInfo)
    (h : chunk_text_full size threshold encode text = .ok chunks) :
    (chunks.map (fun c => c.group)).flatten = split_into_sentences text := by
  obtain ⟨s0, rest, hs, rfl⟩ := chunk_text_full_ok_elim _ _ _ _ _ h
  rw [chunkLoop_groups_join]
  simp [hs]

/-- C3 witness at a concrete two-sentence run. -/
theorem C3_witness :
    (([chunkW].map (fun c => c.group)).flatten = split_into_sentences txtW) :=
  C3_chunks_partition_sentences 100 (1 / 2) encW txtW [chunkW]
    (chunk_text_full_txtW (1 / 2) (by norm_num))

/-- C2 witness at a concrete two-sentence run, discharging the amended
bound. -/
theorem C2_witness : chunkW.content.length ≤ 100 + 1 :=
  C2_multi_sentence_chunk_size_bound 100 (1 / 2) encW txtW [chunkW]
    (chunk_text_full_txtW (1 / 2) (by norm_num)) chunkW (by simp)
    (by decide)

/-- C4: on a text that has non-whitespace content and contains no
sentence-terminal punctuation mark immediately followed by whitespace, the
splitter returns exactly one sentence: the stripped input. -/
theorem C4_no_boundary_single_sentence (text : List Char)
    (hnb : hasBoundary text = false) (hne : pyStrip text ≠ []) :
    split_into_sentences text = [pyStrip text] := by
  unfold split_into_sentences
  rw [rawSplit_no_boundary text hnb]
  simp [hne]

/-- C4 witness: `hi you` has no boundary and is already stripped. -/
theorem C4_witness :
    split_into_sentences ('h' :: 'i' :: ' ' :: 'y' :: 'o' :: 'u' :: [])
      = [('h' :: 'i' :: ' ' :: 'y' :: 'o' :: 'u' :: [])] := by
  have h := C4_no_boundary_single_sentence
    ('h' :: 'i' :: ' ' :: 'y' :: 'o' :: 'u' :: []) (by decide) (by decide)
  rw [h]
  decide

/-- C8, amended.  With `similarity_threshold = 0` and `size_limit` larger
than the text length, the chunker emits exactly one chunk containing all
sentences, provided no pair of consecutive sentence embeddings has
negative cosine similarity (raw cosine similarity can be negative, and a
negative value is strictly below the threshold 0 and forces a split; a NaN
similarity from a zero-norm vector never splits, because every comparison
with NaN is false). -/
theorem C8_threshold_zero_single_chunk (size : Nat)
    (encode : List Char → List ℝ) (text : List Char)
    (chunks : List ChunkInfo)
    (h : chunk_text_full size 0 encode text = .ok chunks)
    (hsize : text.length < size)
    (hnn : ∀ (i : Nat) (x : ℝ),
      calculate_similarity
        (((split_into_sentences text).map encode).getD (i - 1) [])
        (((split_into_sentences text).map encode).getD i []) = some x →
      0 ≤ x) :
    chunks.length = 1 ∧ ∀ c ∈ chunks, c.group = split_into_sentences text := by
  obtain ⟨s0, rest, hs, rfl⟩ := chunk_text_full_ok_elim _ _ _ _ _ h
  rw [hs] at hnn
  have hno : ∀ j, simBelow 0 ((s0 :: rest).map encode) j = false := by
    intro j
    unfold simBelow
    cases hcs : calculate_similarity
        (((s0 :: rest).map encode).getD (j - 1) [])
        (((s0 :: rest).map encode).getD j []) with
    | none => rfl
    | some x =>
      have hx := hnn j x hcs
      exact decide_eq_false (not_lt.mpr hx)
  have hjoin : (joinSp (([s0] : List (List Char)) ++ rest)).length ≤ size := by
    have hsp := split_into_sentences_length text
    rw [hs] at hsp
    have : (([s0] : List (List Char)) ++ rest) = s0 :: rest := by simp
    rw [this]
    omega
  rw [chunkLoop_all_merge size _ hno rest 1 [] [s0] s0.length 0 (by simp)
    (by simp [joinSp]) hjoin]
  constructor
  · simp
  · intro c hc
    simp at hc
    subst hc
    simp [mkChunk, hs]

/-- C8 witness at a concrete run: identical embeddings, threshold 0, large
size limit, one chunk out. -/
theorem C8_witness : ([chunkW] : List ChunkInfo).length = 1 := by
  have hnn : ∀ (i : Nat) (x : ℝ),
      calculate_similarity
        (((split_into_sentences txtW).map encW).getD (i - 1) [])
        (((split_into_sentences txtW).map encW).getD i []) = some x →
      0 ≤ x := by
    have hmap : ((split_into_sentences txtW).map encW)
        = [[(1 : ℝ)], [(1 : ℝ)]] := by
      rw [split_txtW]
      simp [encW]
    rw [hmap]
    intro i x hx
    match i with
    | 0 =>
      simp only [show (0 : Nat) - 1 = 0 from rfl, List.getD_cons_zero] at hx
      rw [calculate_similarity_one_one] at hx
      cases hx
      norm_num
    | 1 =>
      simp only [show (1 : Nat) - 1 = 0 from rfl, List.getD_cons_zero,
        List.getD_cons_succ] at hx
      rw [calculate_similarity_one_one] at hx
      cases hx
      norm_num
    | (i + 2) =>
      simp only [show i + 2 - 1 = i + 1 from rfl, List.getD_cons_succ,
        List.getD_nil] at hx
      rw [calculate_similarity_nil_right] at hx
      cases hx
  exact (C8_threshold_zero_single_chunk 100 encW txtW [chunkW]
    (chunk_text_full_txtW 0 (by norm_num)) (by decide) hnn).1

/-- C8 counterexample to the claim as stated: with threshold 0 and a huge
size limit, two sentences whose embeddings have cosine similarity `-1`
produce two chunks, not one, because `-1 < 0` forces a boundary. -/
theorem C8_counterexample :
    chunk_text_full 100 0 encCx txtCx
      = .ok [⟨[['a', '.']], ['a', '.'], 0, 0, 2, 1⟩,
             ⟨[['b']], ['b'], 1, 3, 4, 1⟩] := by
  unfold chunk_text_full chunk_text
  have hsplit : split_into_sentences txtCx = [['a', '.'], ['b']] := by
    simp [split_into_sentences, txtCx, rawSplit, pyStrip, isTerm, isWs,
      headIsWs]
  rw [hsplit]
  have hmap : (([['a', '.'], ['b']] : List (List Char)).map encCx)
      = [[(1 : ℝ)], [(-1 : ℝ)]] := by
    simp [encCx]
  rw [hmap, if_neg (by decide)]
  have hb := simBelow_one_negone_eq_true
  simp [chunkLoop, hb, mkChunk, joinSp]

/-- C9: every emitted chunk has at least one sentence and non-empty
content, its content is the group joined by single spaces, `end_pos` is
`start_pos` plus the content length, `chunk_index` is the number of chunks
emitted before it, and each next chunk starts at the previous chunk's
`end_pos + 1`. -/
theorem C9_chunk_invariants (size : Nat) (threshold : ℝ)
    (encode : List Char → List ℝ) (text : List Char)
    (chunks : List ChunkInfo)
    (h : chunk_text_full size threshold encode text = .ok chunks) :
    (∀ c ∈ chunks, 1 ≤ c.sentence_count ∧ c.content ≠ [] ∧
      c.content = joinSp c.group ∧
      c.end_pos = c.start_pos + c.content.length) ∧
    (∀ (j : Nat) (c : ChunkInfo), chunks[j]? = some c → c.chunk_index = j) ∧
    List.Chain' follows chunks := by
  obtain ⟨s0, rest, hs, rfl⟩ := chunk_text_full_ok_elim _ _ _ _ _ h
  refine ⟨?_, ?_, ?_⟩
  · intro c hc
    have hf := chunkLoop_fieldsGood size _ rest 1 [] [s0] s0.length 0
      (by simp) (by simp) c hc
    have hsent : ∀ s ∈ split_into_sentences text, s ≠ [] :=
      split_into_sentences_ne_nil_mem text
    rw [hs] at hsent
    have hg := chunkLoop_group_mem size _ (fun g => g ≠ []) rest 1 [] [s0]
      s0.length 0 (by simp)
      (by intro g hg; rcases List.mem_singleton.mp hg with rfl
          exact hsent g (by simp))
      (by intro t ht; exact hsent t (by simp [ht])) c hc
    refine ⟨?_, ?_, hf.1, hf.2.1⟩
    · rw [hf.2.2.1]
      have := List.length_pos.mpr hf.2.2.2
      omega
    · rw [hf.1]
      exact joinSp_ne_nil c.group hf.2.2.2 hg
  · exact chunkLoop_indices size _ rest 1 [] [s0] s0.length 0 (by simp)
  · exact chunkLoop_chained size _ rest 1 [] [s0] s0.length 0 (by simp)
      (by simp)

/-- C9 witness at a concrete run. -/
theorem C9_witness : 1 ≤ chunkW.sentence_count ∧ chunkW.content ≠ [] := by
  have h := C9_chunk_invariants 100 (1 / 2) encW txtW [chunkW]
    (chunk_text_full_txtW (1 / 2) (by norm_num))
  have hc := h.1 chunkW (by simp)
  exact ⟨hc.1, hc.2.1⟩

/-- C5, amended.  The similarity computation has no zero-norm guard: for
vectors of non-zero norm it returns `dot(a,b) / (norm(a)*norm(b))`, but
when either vector has zero norm the code divides zero by zero, which is
NaN (here `none`), not the similarity 0 the claim describes. -/
theorem C5_similarity_zero_norm (a b : List ℝ) :
    (calculate_similarity a b = none ↔ (normSq a = 0 ∨ normSq b = 0)) ∧
    (normSq a ≠ 0 → normSq b ≠ 0 →
      calculate_similarity a b
        = some (dot a b / (Real.sqrt (normSq a) * Real.sqrt (normSq b)))) :=
  ⟨calculate_similarity_none_iff a b, calculate_similarity_of_ne_zero a b⟩

/-- C5 witness: two non-degenerate vectors get their cosine similarity. -/
theorem C5_witness : calculate_similarity [(1 : ℝ)] [(1 : ℝ)] = some 1 := by
  have h := (C5_similarity_zero_norm [(1 : ℝ)] [(1 : ℝ)]).2
    (by norm_num [normSq]) (by norm_num [normSq])
  rw [h]
  norm_num [normSq, dot, Real.sqrt_one]

/-- C5 counterexample to the claim as stated: at the zero vector the
similarity is undefined (NaN from 0.0/0.0), not 0. -/
theorem C5_counterexample :
    calculate_similarity [(0 : ℝ)] [(0 : ℝ)] = none ∧
      calculate_similarity [(0 : ℝ)] [(0 : ℝ)] ≠ some 0 := by
  have h : calculate_similarity [(0 : ℝ)] [(0 : ℝ)] = none :=
    (calculate_similarity_none_iff _ _).mpr (Or.inl (by norm_num [normSq]))
  exact ⟨h, by rw [h]; simp⟩

/-- C6, amended.  On a list input, `embed` returns one vector per input
string whose stripped content is non-empty, in input order; empty and
whitespace-only strings are silently dropped rather than embedded, so the
output has one vector per input only when no input is blank. -/
theorem C6_embed_per_nonblank_input (model : List Char → List ℚ)
    (texts : List (List Char)) (vs : List (List ℚ))
    (h : embed model texts = .ok vs) :
    vs = (texts.filter (fun t => !(pyStrip t).isEmpty)).map model ∧
    vs.length = (texts.filter (fun t => !(pyStrip t).isEmpty)).length ∧
    ((∀ t ∈ texts, pyStrip t ≠ []) → vs = texts.map model) := by
  unfold embed at h
  by_cases h1 : texts.isEmpty
  · rw [if_pos h1] at h
    cases h
  · rw [if_neg h1] at h
    by_cases h2 : (texts.filter (fun t => !(pyStrip t).isEmpty)).isEmpty
    · rw [if_pos h2] at h
      cases h
    · rw [if_neg h2] at h
      cases h
      refine ⟨rfl, by simp, ?_⟩
      intro hall
      have : texts.filter (fun t => !(pyStrip t).isEmpty) = texts := by
        apply List.filter_eq_self.mpr
        intro t ht
        simpa using hall t ht
      rw [this]

/-- C6 witness: with no blank input, one vector per input in order. -/
theorem C6_witness :
    ([[(0 : ℚ)]] : List (List ℚ))
      = ([['h', 'i']] : List (List Char)).map (fun _ => [(0 : ℚ)]) := by
  have h := C6_embed_per_nonblank_input (fun _ => [(0 : ℚ)]) [['h', 'i']]
    [[(0 : ℚ)]] (by rfl)
  exact h.2.2 (by decide)

/-- C6 counterexample to the claim as stated: a non-empty list of two
inputs, one of them whitespace-only, yields a single embedding vector, not
two. -/
theorem C6_counterexample :
    embed (fun _ => [(0 : ℚ)]) [['h', 'i'], [' ']] = .ok [[(0 : ℚ)]] ∧
      ([['h', 'i'], [' ']] : List (List Char)).length = 2 :=
  ⟨rfl, rfl⟩

/-- C10: the formatting loop of `smart_search` preserves length and order
and copies every chunk field and the repository score verbatim into the
`SearchResult` records. -/
theorem C10_format_preserves_results (results : List (ChunkModel × ℚ)) :
    (formatResults results).length = results.length ∧
    (formatResults results).map (fun r =>
        (r.chunk_id, r.document_id, r.user_id, r.content, r.metadata,
          r.similarity_score))
      = results.map (fun p =>
        (p.1.chunk_id, p.1.document_id, p.1.user_id, p.1.content,
          p.1.metadata, p.2)) := by
  constructor
  · simp [formatResults]
  · simp [formatResults]

/-- C1, amended.  The strategy choice of `smart_search` is a pure function
of query-present and filter-present exactly as the truth table states for
the three populated rows, but the neither-present row does not raise inside
`smart_search`: the method itself falls back to an empty result list, and
the `InvalidRequestError` (HTTP 400) for that row is raised by the
`unified_search` route handler before `smart_search` is called. -/
theorem C1_strategy_dispatch (repo : Repo) (req : SearchRequest) :
    (∀ q f, req.query = some q → q ≠ "" → req.filters = some f →
      smart_search repo req
        = formatResults (repo.hybrid_search q f req.top_k req.weight_vector)) ∧
    (∀ q, req.query = some q → q ≠ "" → req.filters = none →
      smart_search repo req
        = formatResults (repo.semantic_search q req.top_k)) ∧
    (∀ f, req.filters = some f →
      (req.query = none ∨ req.query = some "") →
      smart_search repo req
        = formatResults (repo.metadata_search f req.top_k)) ∧
    ((req.query = none ∨ req.query = some "") → req.filters = none →
      smart_search repo req = [] ∧
      unified_search repo req = .error .invalidRequest) := by
  obtain ⟨q0, f0, k0, w0⟩ := req
  refine ⟨?_, ?_, ?_, ?_⟩
  · intro q f hq hq' hf
    cases hq
    cases hf
    simp [smart_search, smart_search_raw, hq']
  · intro q hq hq' hf
    cases hq
    cases hf
    simp [smart_search, smart_search_raw, hq']
  · intro f hf hq
    cases hf
    rcases hq with hq | hq <;> cases hq <;>
      simp [smart_search, smart_search_raw]
  · intro hq hf
    cases hf
    rcases hq with hq | hq <;> cases hq <;>
      simp [smart_search, smart_search_raw, unified_search, formatResults,
        truthyQuery, truthyFilters]

/-- C1 witness: a hybrid request reaches the hybrid repository method. -/
theorem C1_witness :
    smart_search repoW ⟨some "q", some ⟨none, none, none, none, none⟩, 5, 7 / 10⟩
      = formatResults (repoW.hybrid_search "q" ⟨none, none, none, none, none⟩
          5 (7 / 10)) := by
  have h := C1_strategy_dispatch repoW
    ⟨some "q", some ⟨none, none, none, none, none⟩, 5, 7 / 10⟩
  exact h.1 "q" ⟨none, none, none, none, none⟩ rfl (by decide) rfl

/-- C1 counterexample to the claim as stated: on a request with neither
query nor filters, `smart_search` (the component holding the selector
chain) returns an empty list without any error, even against a repository
whose every method returns results. -/
theorem C1_counterexample :
    smart_search repoW ⟨none, none, 5, 7 / 10⟩ = [] := rfl

/-- C7 (score fusion, modelled from the spec): every fused candidate
carries `weight_vector * vector_score + (1 - weight_vector) *
metadata_match` with a binary metadata indicator, the output is sorted by
descending fused score with ties broken by descending vector score then
ascending `chunk_id`, and at most `top_k` results are returned. -/
theorem C7_fusion_ranked_truncated (vector_results : List (ChunkModel × ℚ))
    (f : MetadataFilter) (w : ℚ) (top_k : Nat) :
    (∀ r ∈ hybrid_search_fuse vector_results f w top_k,
      r.fused_score = w * r.vector_score
        + (1 - w) * (if matchesFilter r.chunk f then 1 else 0)) ∧
    List.Pairwise fusedOrder (hybrid_search_fuse vector_results f w top_k) ∧
    (hybrid_search_fuse vector_results f w top_k).length ≤ top_k := by
  refine ⟨?_, ?_, ?_⟩
  · intro r hr
    unfold hybrid_search_fuse at hr
    have h2 := List.take_subset _ _ hr
    have h3 := (List.mergeSort_perm _ fusedLe).mem_iff.mp h2
    rcases List.mem_map.mp h3 with ⟨p, _, rfl⟩
    rfl
  · unfold hybrid_search_fuse
    have hs := List.sorted_mergeSort fusedLe_trans_bool fusedLe_total_bool
      (vector_results.map (fun p =>
        { chunk := p.1
          vector_score := p.2
          fused_score := w * p.2 +
            (1 - w) * (if matchesFilter p.1 f then 1 else 0) :
          FusedResult }))
    have hp := hs.sublist (List.take_sublist top_k _)
    exact hp.imp (fun h => (fusedLe_iff _ _).mp h)
  · unfold hybrid_search_fuse
    simp [List.length_take_le]

/-- C7 witness at a concrete candidate list. -/
theorem C7_witness :
    (hybrid_search_fuse [(chunkM, 9 / 10)]
      ⟨none, none, some ["billing"], none, none⟩ (7 / 10) 2).length ≤ 2 :=
  (C7_fusion_ranked_truncated [(chunkM, 9 / 10)]
    ⟨none, none, some ["billing"], none, none⟩ (7 / 10) 2).2.2

end VectorDB
